import Mathlib

/-!
Shallow embedding of the `entropy_hpc` Rust library: exact arithmetic over
Gaussian integers (`ZInt`), Hurwitz-style quaternions with doubled storage
(`HInt`) and integer octonions (`OInt`), plus the batch array layer.
Machine `i32`/`i64` components are modelled as `Int`; the widened `i64`
intermediates of the source never overflow for the inputs considered, and
the rounding `f64` path of `div_rem` is modelled as exact
round-half-away-from-zero, matching `f64::round` on exactly representable
values.  `u64` denominators are modelled as `Nat`.
-/

namespace Entropy

/-- Round-half-away-from-zero of the rational `num / den` (for `den > 0`),
modelling Rust's `f64::round` applied to an exact quotient. -/
def rndHalfAway (num den : Int) : Int :=
  if 0 ≤ num then (2 * num + den) / (2 * den)
  else -((2 * (-num) + den) / (2 * den))

/-- The rounding error is at most half the denominator:
`|2*(num - q*den)| ≤ den` for `q = rndHalfAway num den`. -/
theorem rndHalfAway_bound (num den : Int) (hden : 0 < den) :
    2 * (num - rndHalfAway num den * den) ≤ den ∧
    -den ≤ 2 * (num - rndHalfAway num den * den) := by
  unfold rndHalfAway
  rcases le_or_lt 0 num with h | h
  · simp only [if_pos h]
    have h2 : (0:Int) < 2 * den := by omega
    have hdiv := Int.ediv_add_emod (2 * num + den) (2 * den)
    have hlo := Int.emod_nonneg (2 * num + den) (by omega : (2:Int) * den ≠ 0)
    have hhi := Int.emod_lt_of_pos (2 * num + den) h2
    set q := (2 * num + den) / (2 * den) with hqdef
    have hcomm : 2 * den * q = 2 * (q * den) := by ring
    rw [hcomm] at hdiv
    omega
  · simp only [if_neg (by omega : ¬ 0 ≤ num)]
    have h2 : (0:Int) < 2 * den := by omega
    have hdiv := Int.ediv_add_emod (2 * (-num) + den) (2 * den)
    have hlo := Int.emod_nonneg (2 * (-num) + den) (by omega : (2:Int) * den ≠ 0)
    have hhi := Int.emod_lt_of_pos (2 * (-num) + den) h2
    set q := (2 * (-num) + den) / (2 * den) with hqdef
    have hcomm : 2 * den * q = 2 * (q * den) := by ring
    have hneg : -q * den = -(q * den) := by ring
    rw [hcomm] at hdiv
    rw [hneg]
    omega

/-- Rounding an exact multiple recovers the multiplier. -/
theorem rndHalfAway_mul (k den : Int) (hden : 0 < den) :
    rndHalfAway (k * den) den = k := by
  have h := rndHalfAway_bound (k * den) den hden
  set q := rndHalfAway (k * den) den with hq
  have h1 : 2 * ((k - q) * den) ≤ den := by have := h.1; nlinarith [h.1]
  have h2 : -den ≤ 2 * ((k - q) * den) := by nlinarith [h.2]
  nlinarith [sq_nonneg (k - q), mul_self_nonneg ((k - q) * den)]

/-- Error kinds of the rank-2 Gaussian-integer operations
(`ZIntError` in `zint.rs`; `types/cint.rs` has the identical `CIntError`). -/
inductive ZIntError where
  | Overflow
  | DivisionByZero
  | NotDivisible
  | NoInverse
deriving DecidableEq, Repr

/-- Gaussian integer `a + b·i` with `i32` components, from `zint.rs`. -/
structure ZInt where
  a : Int
  b : Int
deriving DecidableEq, Repr

/-- Fraction of a Gaussian integer over an unsigned denominator
(`ZIFraction` in `zint.rs`). -/
structure ZIFraction where
  num : ZInt
  den : Nat
deriving DecidableEq, Repr

namespace ZInt

def new (a b : Int) : ZInt := ⟨a, b⟩

def zero : ZInt := new 0 0

def one : ZInt := new 1 0

def iUnit : ZInt := new 0 1

def isZero (x : ZInt) : Bool := x.a = 0 && x.b = 0

def conj (x : ZInt) : ZInt := ⟨x.a, -x.b⟩

/-- `ZInt::norm_squared`: widened sum of squares (nonnegative, so the
source's `u64` cast is value-preserving; we keep it in `Int`). -/
def normSq (x : ZInt) : Int := x.a * x.a + x.b * x.b

def add (x y : ZInt) : ZInt := ⟨x.a + y.a, x.b + y.b⟩

def sub (x y : ZInt) : ZInt := ⟨x.a - y.a, x.b - y.b⟩

def neg (x : ZInt) : ZInt := ⟨-x.a, -x.b⟩

/-- The exact value of the widened product (the `i64` intermediates of
`impl Mul for ZInt` before the overflow check). -/
def mul (x y : ZInt) : ZInt :=
  ⟨x.a * y.a - x.b * y.b, x.a * y.b + x.b * y.a⟩

/-- `impl Mul for ZInt` with its overflow check: the source executes
`panic!("ZInt multiplication overflow")` when a widened component leaves
the `i32` range; the panic is modelled as `none`. -/
def mulChk (x y : ZInt) : Option ZInt :=
  let real := x.a * y.a - x.b * y.b
  let imag := x.a * y.b + x.b * y.a
  if real > 2147483647 ∨ real < -2147483648 ∨
     imag > 2147483647 ∨ imag < -2147483648 then none
  else some ⟨real, imag⟩

def isUnit (x : ZInt) : Bool := x.normSq = 1

def associates (x : ZInt) : List ZInt :=
  [x, new (-x.b) x.a, new (-x.a) (-x.b), new x.b (-x.a)]

/-- `ZInt::normalize`: canonical first-quadrant representative.  The two
source `for` loops are first-match searches over `associates`. -/
def normalize (x : ZInt) : ZInt :=
  if x.isZero then x
  else if x.a = 0 ∧ x.b ≠ 0 then new x.b.natAbs 0
  else if 0 < x.a ∧ 0 ≤ x.b then x
  else
    match x.associates.find? (fun c => decide (0 < c.a) && decide (0 ≤ c.b)) with
    | some c => c
    | none =>
      match x.associates.find? (fun c => decide (0 < c.a)) with
      | some c => c
      | none => x

/-- `ZInt::div_rem`: nearest-lattice-point division.  The source routes
the rounding through `f64`; it is modelled as exact
round-half-away-from-zero (`f64::round`'s convention). -/
def divRem (x d : ZInt) : Except ZIntError (ZInt × ZInt) :=
  if d.isZero then .error .DivisionByZero
  else
    let normD := d.normSq
    let dConj := d.conj
    let numA := x.a * dConj.a - x.b * dConj.b
    let numB := x.a * dConj.b + x.b * dConj.a
    let q : ZInt := ⟨rndHalfAway numA normD, rndHalfAway numB normD⟩
    let r := x.sub (q.mul d)
    .ok (q, r)

/-- `ZInt::div_exact`. -/
def divExact (x d : ZInt) : Except ZIntError ZInt :=
  match x.divRem d with
  | .error e => .error e
  | .ok (q, r) => if r.isZero then .ok q else .error .NotDivisible

/-- `ZInt::inv_unit`. -/
def invUnit (x : ZInt) : Except ZIntError ZInt :=
  if ¬ x.isUnit then .error .NoInverse
  else
    match x.associates.find? (fun u => decide ((x.mul u).a = 1) && decide ((x.mul u).b = 0)) with
    | some u => .ok u
    | none => .error .NoInverse

/-- `ZInt::reduce_fraction` (the nested `num_utils::integer_gcd` is
Euclid's algorithm on `u64`, i.e. `Nat.gcd`). -/
def reduceFraction (frac : ZIFraction) : ZIFraction :=
  let aAbs := frac.num.a.natAbs
  let bAbs := frac.num.b.natAbs
  let g1 := Nat.gcd aAbs bAbs
  let g := Nat.gcd g1 frac.den
  if g ≤ 1 then frac
  else
    { num := ⟨frac.num.a.tdiv g, frac.num.b.tdiv g⟩,
      den := frac.den / g }

/-- One iteration of the `while` loop in `ZInt::gcd`: from state `(x, y)`
with `y ≠ 0` move to `(y, r)` where `r` is the `div_rem` remainder. -/
def gcdStep (s : ZInt × ZInt) : ZInt × ZInt :=
  if s.2.isZero then s
  else
    match s.1.divRem s.2 with
    | .ok (_, r) => (s.2, r)
    | .error _ => s

end ZInt

/-- Error kinds of the rank-4 quaternion operations (`HIntError`). -/
inductive HIntError where
  | Overflow
  | DivisionByZero
  | NotDivisible
  | NoInverse
  | InvalidHalfInteger
deriving DecidableEq, Repr

/-- Hurwitz-style quaternion from `hint.rs`; every field stores twice the
actual coordinate (even ⇒ integer coordinate, odd ⇒ half-integer). -/
structure HInt where
  a : Int
  b : Int
  c : Int
  d : Int
deriving DecidableEq, Repr

/-- Quaternion fraction (`HIFraction`). -/
structure HIFraction where
  num : HInt
  den : Nat
deriving DecidableEq, Repr

namespace HInt

/-- `HInt::new`: integer coordinates, stored doubled. -/
def new (a b c d : Int) : HInt := ⟨a * 2, b * 2, c * 2, d * 2⟩

/-- `HInt::from_halves`: raw doubled components, accepted only with
uniform parity (Rust `%` on `i32` is truncated remainder, `Int.tmod`). -/
def fromHalves (a b c d : Int) : Except HIntError HInt :=
  let aOdd : Bool := a.tmod 2 != 0
  let bOdd : Bool := b.tmod 2 != 0
  let cOdd : Bool := c.tmod 2 != 0
  let dOdd : Bool := d.tmod 2 != 0
  if aOdd != bOdd || aOdd != cOdd || aOdd != dOdd then .error .InvalidHalfInteger
  else .ok ⟨a, b, c, d⟩

def zero : HInt := new 0 0 0 0

def one : HInt := new 1 0 0 0

def isZero (x : HInt) : Bool :=
  x.a = 0 && x.b = 0 && x.c = 0 && x.d = 0

def conj (x : HInt) : HInt := ⟨x.a, -x.b, -x.c, -x.d⟩

/-- `HInt::norm_squared`: `(a²+b²+c²+d²)/4` on the doubled storage.  The
sum is nonnegative, so the source's truncating `i64` division by 4 agrees
with `Int` floor division. -/
def normSq (x : HInt) : Int :=
  (x.a * x.a + x.b * x.b + x.c * x.c + x.d * x.d) / 4

def add (x y : HInt) : HInt := ⟨x.a + y.a, x.b + y.b, x.c + y.c, x.d + y.d⟩

def sub (x y : HInt) : HInt := ⟨x.a - y.a, x.b - y.b, x.c - y.c, x.d - y.d⟩

def neg (x : HInt) : HInt := ⟨-x.a, -x.b, -x.c, -x.d⟩

/-- Widened scalar component of the Hamilton product on doubled storage,
before the final division by 2 (`impl Mul for HInt`). -/
def mulWideA (x y : HInt) : Int :=
  x.a * y.a - x.b * y.b - x.c * y.c - x.d * y.d

/-- Widened `i` component before the division by 2. -/
def mulWideB (x y : HInt) : Int :=
  x.a * y.b + x.b * y.a + x.c * y.d - x.d * y.c

/-- Widened `j` component before the division by 2. -/
def mulWideC (x y : HInt) : Int :=
  x.a * y.c - x.b * y.d + x.c * y.a + x.d * y.b

/-- Widened `k` component before the division by 2. -/
def mulWideD (x y : HInt) : Int :=
  x.a * y.d + x.b * y.c - x.c * y.b + x.d * y.a

/-- `impl Mul for HInt`: Hamilton product on doubled storage; the final
`/ 2` is Rust's truncating `i64` division (`Int.tdiv`). -/
def mul (x y : HInt) : HInt :=
  ⟨(mulWideA x y).tdiv 2, (mulWideB x y).tdiv 2,
   (mulWideC x y).tdiv 2, (mulWideD x y).tdiv 2⟩

/-- `HInt::div_rem`; the `f64` rounding of `stored/(2n)` followed by
`*2` is modelled as `2 * rndHalfAway stored (2n)`. -/
def divRem (x d : HInt) : Except HIntError (HInt × HInt) :=
  if d.isZero then .error .DivisionByZero
  else
    let dNorm := d.normSq
    let numProd := x.mul d.conj
    let q : HInt :=
      ⟨2 * rndHalfAway numProd.a (2 * dNorm),
       2 * rndHalfAway numProd.b (2 * dNorm),
       2 * rndHalfAway numProd.c (2 * dNorm),
       2 * rndHalfAway numProd.d (2 * dNorm)⟩
    let r := x.sub (q.mul d)
    .ok (q, r)

/-- `HInt::div_exact`. -/
def divExact (x d : HInt) : Except HIntError HInt :=
  match x.divRem d with
  | .error e => .error e
  | .ok (q, r) => if r.isZero then .ok q else .error .NotDivisible

/-- `HInt::reduce_fraction`: only the denominator is divided by the
common gcd; the numerator is returned unchanged. -/
def reduceFraction (frac : HIFraction) : HIFraction :=
  let aAbs := frac.num.a.natAbs
  let bAbs := frac.num.b.natAbs
  let cAbs := frac.num.c.natAbs
  let dAbs := frac.num.d.natAbs
  let g1 := Nat.gcd aAbs bAbs
  let g2 := Nat.gcd cAbs dAbs
  let g3 := Nat.gcd g1 g2
  let g := Nat.gcd g3 frac.den
  if g ≤ 1 then frac
  else { num := frac.num, den := frac.den / g }

/-- One iteration of the `while` loop in `HInt::gcd`: `unwrap_or` turns a
division error into the remainder `a` itself. -/
def gcdStep (s : HInt × HInt) : HInt × HInt :=
  if s.2.isZero then s
  else
    match s.1.divRem s.2 with
    | .ok (_, r) => (s.2, r)
    | .error _ => (s.2, s.1)

/-- `HInt::normalize`: flip the sign when the real part is negative. -/
def normalize (x : HInt) : HInt :=
  if x.isZero then x
  else if 0 < x.a then x
  else if 0 < (neg x).a then neg x
  else x

end HInt

/-- Error kinds of the rank-8 octonion operations in `oint.rs`. -/
inductive OIntError where
  | Overflow
  | DivisionByZero
  | NotDivisible
  | NoInverse
  | InvalidHalfInteger
deriving DecidableEq, Repr

/-- Integer octonion from the top-level `oint.rs` (plain, unscaled
components `a + b·e₁ + … + h·e₇`). -/
structure OInt where
  a : Int
  b : Int
  c : Int
  d : Int
  e : Int
  f : Int
  g : Int
  h : Int
deriving DecidableEq, Repr

/-- Octonion fraction (`OIFraction` in the top-level `oint.rs`). -/
structure OIFraction where
  num : OInt
  den : Nat
deriving DecidableEq, Repr

/-- `fano_plane::multiply_basis` from the top-level `oint.rs`: sign and
target index of `eᵢ·eⱼ`.  The pairs `(2,7)`, `(7,2)`, `(3,6)`, `(6,3)`
have no `match` arm there and fall through to the default `(1, 0)`. -/
def fanoTop (i j : Nat) : Int × Nat :=
  if i = 0 then (1, j)
  else if j = 0 then (1, i)
  else if i = j then (-1, 0)
  else
    match i, j with
    | 1, 2 => (1, 4)
    | 2, 1 => (-1, 4)
    | 2, 3 => (1, 5)
    | 3, 2 => (-1, 5)
    | 3, 1 => (1, 6)
    | 1, 3 => (-1, 6)
    | 1, 4 => (-1, 2)
    | 4, 1 => (1, 2)
    | 4, 2 => (1, 1)
    | 2, 4 => (-1, 1)
    | 1, 5 => (1, 3)
    | 5, 1 => (-1, 3)
    | 5, 3 => (1, 1)
    | 3, 5 => (-1, 1)
    | 1, 6 => (-1, 5)
    | 6, 1 => (1, 5)
    | 6, 5 => (1, 1)
    | 5, 6 => (-1, 1)
    | 1, 7 => (1, 6)
    | 7, 1 => (-1, 6)
    | 7, 6 => (1, 1)
    | 6, 7 => (-1, 1)
    | 2, 5 => (-1, 7)
    | 5, 2 => (1, 7)
    | 2, 6 => (1, 7)
    | 6, 2 => (-1, 7)
    | 3, 4 => (1, 7)
    | 4, 3 => (-1, 7)
    | 3, 7 => (-1, 4)
    | 7, 3 => (1, 4)
    | 4, 5 => (1, 6)
    | 5, 4 => (-1, 6)
    | 4, 6 => (-1, 5)
    | 6, 4 => (1, 5)
    | 4, 7 => (1, 2)
    | 7, 4 => (-1, 2)
    | 5, 7 => (-1, 4)
    | 7, 5 => (1, 4)
    | _, _ => (1, 0)

namespace OInt

def new (a b c d e f g h : Int) : OInt := ⟨a, b, c, d, e, f, g, h⟩

def zero : OInt := new 0 0 0 0 0 0 0 0

def one : OInt := new 1 0 0 0 0 0 0 0

def e1 : OInt := new 0 1 0 0 0 0 0 0
def e2 : OInt := new 0 0 1 0 0 0 0 0
def e3 : OInt := new 0 0 0 1 0 0 0 0
def e4 : OInt := new 0 0 0 0 1 0 0 0
def e5 : OInt := new 0 0 0 0 0 1 0 0
def e6 : OInt := new 0 0 0 0 0 0 1 0
def e7 : OInt := new 0 0 0 0 0 0 0 1

/-- `OInt::from_halves` in the top-level `oint.rs` performs no parity
check at all: it always succeeds. -/
def fromHalves (a b c d e f g h : Int) : Except OIntError OInt :=
  .ok (new a b c d e f g h)

def isZero (x : OInt) : Bool :=
  x.a = 0 && x.b = 0 && x.c = 0 && x.d = 0 &&
  x.e = 0 && x.f = 0 && x.g = 0 && x.h = 0

def conj (x : OInt) : OInt :=
  new x.a (-x.b) (-x.c) (-x.d) (-x.e) (-x.f) (-x.g) (-x.h)

/-- `OInt::norm_squared`. -/
def normSq (x : OInt) : Int :=
  x.a * x.a + x.b * x.b + x.c * x.c + x.d * x.d +
  x.e * x.e + x.f * x.f + x.g * x.g + x.h * x.h

def add (x y : OInt) : OInt :=
  new (x.a + y.a) (x.b + y.b) (x.c + y.c) (x.d + y.d)
    (x.e + y.e) (x.f + y.f) (x.g + y.g) (x.h + y.h)

def sub (x y : OInt) : OInt :=
  new (x.a - y.a) (x.b - y.b) (x.c - y.c) (x.d - y.d)
    (x.e - y.e) (x.f - y.f) (x.g - y.g) (x.h - y.h)

def neg (x : OInt) : OInt :=
  new (-x.a) (-x.b) (-x.c) (-x.d) (-x.e) (-x.f) (-x.g) (-x.h)

def comp (x : OInt) : Nat → Int
  | 0 => x.a
  | 1 => x.b
  | 2 => x.c
  | 3 => x.d
  | 4 => x.e
  | 5 => x.f
  | 6 => x.g
  | _ => x.h

def addComp (x : OInt) (idx : Nat) (v : Int) : OInt :=
  match idx with
  | 0 => { x with a := x.a + v }
  | 1 => { x with b := x.b + v }
  | 2 => { x with c := x.c + v }
  | 3 => { x with d := x.d + v }
  | 4 => { x with e := x.e + v }
  | 5 => { x with f := x.f + v }
  | 6 => { x with g := x.g + v }
  | _ => { x with h := x.h + v }

/-- The 64 `(i, j)` pairs of the double loop in `impl Mul for OInt`. -/
def mulPairs : List (Nat × Nat) :=
  (List.range 8).foldr (fun i acc => ((List.range 8).map fun j => (i, j)) ++ acc) []

/-- `impl Mul for OInt` (top-level `oint.rs`): scatter-accumulate over
all 64 basis pairs using `fanoTop`. -/
def mul (x y : OInt) : OInt :=
  mulPairs.foldl
    (fun acc p =>
      let s := fanoTop p.1 p.2
      addComp acc s.2 (comp x p.1 * comp y p.2 * s.1))
    zero

/-- `OInt::div_rem` (top-level): componentwise truncating `i32` division
of `x·conj d` by `norm²(d)` — no rounding. -/
def divRem (x d : OInt) : Except OIntError (OInt × OInt) :=
  if d.isZero then .error .DivisionByZero
  else
    let dNorm := d.normSq
    let numProd := x.mul d.conj
    let q : OInt :=
      new (numProd.a.tdiv dNorm) (numProd.b.tdiv dNorm) (numProd.c.tdiv dNorm)
        (numProd.d.tdiv dNorm) (numProd.e.tdiv dNorm) (numProd.f.tdiv dNorm)
        (numProd.g.tdiv dNorm) (numProd.h.tdiv dNorm)
    let r := x.sub (q.mul d)
    .ok (q, r)

/-- `OInt::div_exact`. -/
def divExact (x d : OInt) : Except OIntError OInt :=
  match x.divRem d with
  | .error e => .error e
  | .ok (q, r) => if r.isZero then .ok q else .error .NotDivisible

/-- `OInt::reduce_fraction` (top-level): gcd of `norm²(num)` and the
denominator; the `u64` division `frac.den / g` panics when `g = 0`
(both zero), modelled as `none`. -/
def reduceFraction (frac : OIFraction) : Option OIFraction :=
  let g := Nat.gcd frac.num.normSq.natAbs frac.den
  if g = 0 then none
  else some { num := frac.num, den := frac.den / g }

/-- One iteration of the `while` loop in `OInt::gcd`. -/
def gcdStep (s : OInt × OInt) : OInt × OInt :=
  if s.2.isZero then s
  else
    match s.1.divRem s.2 with
    | .ok (_, r) => (s.2, r)
    | .error _ => (s.2, s.1)

/-- `OInt::moufang_identity`. -/
def moufang (a b c : OInt) : Bool :=
  (a.mul b).mul (c.mul a) = a.mul ((b.mul c).mul a)

end OInt

/-- `fano_plane::multiply_basis` from `types/oint.rs`: the complete
table, including the `(6,3)`, `(3,6)`, `(7,2)`, `(2,7)` arms that the
top-level table lacks. -/
def fanoTyped (i j : Nat) : Int × Nat :=
  if i = 0 then (1, j)
  else if j = 0 then (1, i)
  else if i = j then (-1, 0)
  else
    match i, j with
    | 1, 2 => (1, 4)
    | 2, 1 => (-1, 4)
    | 2, 3 => (1, 5)
    | 3, 2 => (-1, 5)
    | 3, 1 => (1, 6)
    | 1, 3 => (-1, 6)
    | 1, 4 => (-1, 2)
    | 4, 1 => (1, 2)
    | 4, 2 => (1, 1)
    | 2, 4 => (-1, 1)
    | 1, 5 => (1, 3)
    | 5, 1 => (-1, 3)
    | 5, 3 => (1, 1)
    | 3, 5 => (-1, 1)
    | 1, 6 => (-1, 5)
    | 6, 1 => (1, 5)
    | 6, 5 => (1, 1)
    | 5, 6 => (-1, 1)
    | 1, 7 => (1, 6)
    | 7, 1 => (-1, 6)
    | 7, 6 => (1, 1)
    | 6, 7 => (-1, 1)
    | 2, 5 => (-1, 7)
    | 5, 2 => (1, 7)
    | 2, 6 => (1, 7)
    | 6, 2 => (-1, 7)
    | 3, 4 => (1, 7)
    | 4, 3 => (-1, 7)
    | 3, 7 => (-1, 4)
    | 7, 3 => (1, 4)
    | 4, 5 => (1, 6)
    | 5, 4 => (-1, 6)
    | 4, 6 => (-1, 5)
    | 6, 4 => (1, 5)
    | 4, 7 => (1, 2)
    | 7, 4 => (-1, 2)
    | 5, 7 => (-1, 4)
    | 7, 5 => (1, 4)
    | 6, 3 => (1, 7)
    | 3, 6 => (-1, 7)
    | 7, 2 => (1, 5)
    | 2, 7 => (-1, 5)
    | _, _ => (1, 0)

/-- Octonion from `types/oint.rs`: doubled storage for half-integer
support (same component layout as the top-level `OInt`). -/
structure TOInt where
  a : Int
  b : Int
  c : Int
  d : Int
  e : Int
  f : Int
  g : Int
  h : Int
deriving DecidableEq, Repr

namespace TOInt

/-- `OInt::new` in `types/oint.rs`: stores every component doubled. -/
def new (a b c d e f g h : Int) : TOInt :=
  ⟨a * 2, b * 2, c * 2, d * 2, e * 2, f * 2, g * 2, h * 2⟩

def zero : TOInt := new 0 0 0 0 0 0 0 0
def one : TOInt := new 1 0 0 0 0 0 0 0
def e1 : TOInt := new 0 1 0 0 0 0 0 0
def e2 : TOInt := new 0 0 1 0 0 0 0 0
def e7 : TOInt := new 0 0 0 0 0 0 0 1

/-- `OInt::from_halves` in `types/oint.rs`: all eight components must
share the parity of the first one. -/
def fromHalves (a b c d e f g h : Int) : Except OIntError TOInt :=
  let firstOdd : Bool := a.tmod 2 != 0
  if ((a.tmod 2 != 0) == firstOdd) && ((b.tmod 2 != 0) == firstOdd) &&
     ((c.tmod 2 != 0) == firstOdd) && ((d.tmod 2 != 0) == firstOdd) &&
     ((e.tmod 2 != 0) == firstOdd) && ((f.tmod 2 != 0) == firstOdd) &&
     ((g.tmod 2 != 0) == firstOdd) && ((h.tmod 2 != 0) == firstOdd)
  then .ok ⟨a, b, c, d, e, f, g, h⟩
  else .error .InvalidHalfInteger

def comp (x : TOInt) : Nat → Int
  | 0 => x.a
  | 1 => x.b
  | 2 => x.c
  | 3 => x.d
  | 4 => x.e
  | 5 => x.f
  | 6 => x.g
  | _ => x.h

def addComp (x : TOInt) (idx : Nat) (v : Int) : TOInt :=
  match idx with
  | 0 => { x with a := x.a + v }
  | 1 => { x with b := x.b + v }
  | 2 => { x with c := x.c + v }
  | 3 => { x with d := x.d + v }
  | 4 => { x with e := x.e + v }
  | 5 => { x with f := x.f + v }
  | 6 => { x with g := x.g + v }
  | _ => { x with h := x.h + v }

/-- `impl Mul for OInt` in `types/oint.rs`: accumulate over all 64 basis
pairs with the complete table, then halve each component (truncating
`i64` division) to keep the doubled storage. -/
def mul (x y : TOInt) : TOInt :=
  let acc := Entropy.OInt.mulPairs.foldl
    (fun acc p =>
      let s := fanoTyped p.1 p.2
      addComp acc s.2 (comp x p.1 * comp y p.2 * s.1))
    ⟨0, 0, 0, 0, 0, 0, 0, 0⟩
  ⟨acc.a.tdiv 2, acc.b.tdiv 2, acc.c.tdiv 2, acc.d.tdiv 2,
   acc.e.tdiv 2, acc.f.tdiv 2, acc.g.tdiv 2, acc.h.tdiv 2⟩

/-- `OInt::moufang_identity` in `types/oint.rs`. -/
def moufang (a b c : TOInt) : Bool :=
  (a.mul b).mul (c.mul a) = a.mul ((b.mul c).mul a)

end TOInt

/-- Gaussian integer from `types/cint.rs` (structurally identical to
`ZInt`; only its multiplication is needed here). -/
structure CInt where
  a : Int
  b : Int
deriving DecidableEq, Repr

namespace CInt

/-- `impl Mul for CInt` with its overflow check: the source executes
`panic!("CInt multiplication overflow")` when a widened component leaves
the `i32` range; the panic is modelled as `none`. -/
def mulChk (x y : CInt) : Option CInt :=
  let real := x.a * y.a - x.b * y.b
  let imag := x.a * y.b + x.b * y.a
  if real > 2147483647 ∨ real < -2147483648 ∨
     imag > 2147483647 ∨ imag < -2147483648 then none
  else some ⟨real, imag⟩

end CInt

/-- `zint_add_arrays` from `simd/simd_engine.rs`: full chunks of four go
through `zint_add_batch` (whose scalar semantics is the componentwise
sum), the remaining tail elements through the scalar loop.  The source
asserts equal input lengths. -/
def zintAddArrays : List ZInt → List ZInt → List ZInt
  | a1 :: a2 :: a3 :: a4 :: as, b1 :: b2 :: b3 :: b4 :: bs =>
      ZInt.add a1 b1 :: ZInt.add a2 b2 :: ZInt.add a3 b3 :: ZInt.add a4 b4 ::
        zintAddArrays as bs
  | as, bs => List.zipWith ZInt.add as bs

/-- `hint_add_arrays` from `simd/simd_engine.rs`: full chunks of two go
through `hint_add_batch`, the tail through the scalar loop. -/
def hintAddArrays : List HInt → List HInt → List HInt
  | a1 :: a2 :: as, b1 :: b2 :: bs =>
      HInt.add a1 b1 :: HInt.add a2 b2 :: hintAddArrays as bs
  | as, bs => List.zipWith HInt.add as bs

/-! ### Helper lemmas -/

theorem ZInt.normSq_nonneg (x : ZInt) : 0 ≤ x.normSq :=
  add_nonneg (mul_self_nonneg _) (mul_self_nonneg _)

theorem ZInt.normSq_pos (x : ZInt) (hx : x.isZero = false) : 0 < x.normSq := by
  have h : ¬ (x.a = 0 ∧ x.b = 0) := by
    intro ⟨h1, h2⟩; simp [isZero, h1, h2] at hx
  unfold normSq
  rcases lt_trichotomy x.a 0 with ha | ha | ha
  · nlinarith [sq_nonneg x.b]
  · have hb : x.b ≠ 0 := fun hb => h ⟨ha, hb⟩
    rcases lt_trichotomy x.b 0 with h2 | h2 | h2
    · nlinarith
    · exact absurd h2 hb
    · nlinarith
  · nlinarith [sq_nonneg x.b]

theorem ZInt.normSq_eq_zero (x : ZInt) (hx : x.normSq = 0) : x.isZero = true := by
  unfold normSq at hx
  have ha : x.a = 0 := by nlinarith [mul_self_nonneg x.a, mul_self_nonneg x.b]
  have hb : x.b = 0 := by nlinarith [mul_self_nonneg x.a, mul_self_nonneg x.b]
  simp [isZero, ha, hb]

theorem ZInt.normSq_mul (x y : ZInt) : (x.mul y).normSq = x.normSq * y.normSq := by
  simp only [normSq, mul]
  ring

/-- Full specification of `ZInt::div_rem` on a nonzero divisor: the
division never fails, reconstructs the dividend, and the remainder's
squared norm is strictly below the divisor's (the lattice-rounding
argument: each rounding error is at most one half). -/
theorem ZInt.divRem_euclid (x d : ZInt) (hd : d.isZero = false) :
    ∃ q r, x.divRem d = .ok (q, r) ∧ (q.mul d).add r = x ∧
      r.normSq < d.normSq := by
  have hn : 0 < d.normSq := d.normSq_pos hd
  unfold divRem
  rw [if_neg (by simp [hd])]
  obtain ⟨bA1, bA2⟩ :=
    rndHalfAway_bound (x.a * d.conj.a - x.b * d.conj.b) d.normSq hn
  obtain ⟨bB1, bB2⟩ :=
    rndHalfAway_bound (x.a * d.conj.b + x.b * d.conj.a) d.normSq hn
  refine ⟨_, _, rfl, ?_, ?_⟩
  · simp only [ZInt.add, ZInt.sub]
    congr 1 <;> ring
  · set qa := rndHalfAway (x.a * d.conj.a - x.b * d.conj.b) d.normSq with hqa
    set qb := rndHalfAway (x.a * d.conj.b + x.b * d.conj.a) d.normSq with hqb
    set n := d.normSq with hndef
    have hsqA :
        (2 * ((x.a * d.conj.a - x.b * d.conj.b) - qa * n)) ^ 2 ≤ n ^ 2 :=
      sq_le_sq' (by omega) (by omega)
    have hsqB :
        (2 * ((x.a * d.conj.b + x.b * d.conj.a) - qb * n)) ^ 2 ≤ n ^ 2 :=
      sq_le_sq' (by omega) (by omega)
    have key : 4 * ((x.sub (ZInt.mul ⟨qa, qb⟩ d)).normSq * n) =
        (2 * ((x.a * d.conj.a - x.b * d.conj.b) - qa * n)) ^ 2 +
        (2 * ((x.a * d.conj.b + x.b * d.conj.a) - qb * n)) ^ 2 := by
      simp only [ZInt.sub, ZInt.mul, ZInt.normSq, hndef, ZInt.conj]
      ring
    have hr0 : 0 ≤ (x.sub (ZInt.mul ⟨qa, qb⟩ d)).normSq :=
      ZInt.normSq_nonneg _
    have h4 : 4 * ((x.sub (ZInt.mul ⟨qa, qb⟩ d)).normSq * n) ≤ 2 * n ^ 2 := by
      omega
    have h2 : 2 * (x.sub (ZInt.mul ⟨qa, qb⟩ d)).normSq ≤ n := by nlinarith
    omega

/-- `HInt::div_rem` on a nonzero divisor always succeeds and
reconstructs the dividend (`r` is defined as `x - q*d`). -/
theorem HInt.divRem_reconstruct (x d : HInt) (hd : d.isZero = false) :
    ∃ q r, x.divRem d = .ok (q, r) ∧ (q.mul d).add r = x := by
  unfold divRem
  rw [if_neg (by simp [hd])]
  refine ⟨_, _, rfl, ?_⟩
  simp only [HInt.add, HInt.sub]
  congr 1 <;> ring

/-- `OInt::div_rem` on a nonzero divisor always succeeds and
reconstructs the dividend. -/
theorem OInt.divRem_reconstructs (x d : OInt) (hd : d.isZero = false) :
    ∃ q r, x.divRem d = .ok (q, r) ∧ (q.mul d).add r = x := by
  unfold divRem
  rw [if_neg (by simp [hd])]
  refine ⟨_, _, rfl, ?_⟩
  simp only [OInt.add, OInt.sub, OInt.new]
  congr 1 <;> ring

theorem ZInt.gcdStep_eq (x y : ZInt) (q r : ZInt)
    (hy : y.isZero = false) (hok : x.divRem y = .ok (q, r)) :
    ZInt.gcdStep (x, y) = (y, r) := by
  simp only [ZInt.gcdStep, hy, Bool.false_eq_true, if_false, hok]

/-- The rank-2 Euclidean loop reaches a zero second component within any
iteration budget dominating the divisor's squared norm. -/
theorem ZInt.gcdStep_reaches_aux :
    ∀ N : Nat, ∀ x y : ZInt, (y.normSq).toNat ≤ N →
      ∃ n : Nat, ((ZInt.gcdStep)^[n] (x, y)).2.isZero = true := by
  intro N
  induction N with
  | zero =>
    intro x y hN
    have h0 : y.normSq = 0 := by
      have := y.normSq_nonneg; omega
    exact ⟨0, y.normSq_eq_zero h0⟩
  | succ N ih =>
    intro x y hN
    by_cases hy : y.isZero = true
    · exact ⟨0, hy⟩
    · have hy' : y.isZero = false := by
        revert hy; cases y.isZero <;> simp
      obtain ⟨q, r, hok, hqr, hlt⟩ := ZInt.divRem_euclid x y hy'
      have hr0 := r.normSq_nonneg
      have hm : (r.normSq).toNat ≤ N := by omega
      obtain ⟨n, hn⟩ := ih y r hm
      refine ⟨n + 1, ?_⟩
      rw [Function.iterate_succ_apply, ZInt.gcdStep_eq x y q r hy' hok]
      exact hn

/-- The `while` loop of `ZInt::gcd`, indexed by an iteration budget.
`ZInt.gcdStep_reaches_aux` shows a budget of `norm²(y) + 1` always
suffices, so the fuel-free source loop computes the same value. -/
def ZInt.gcdFuel : Nat → ZInt → ZInt → ZInt
  | 0, x, _ => x
  | fuel + 1, x, y =>
    if y.isZero then x
    else
      match x.divRem y with
      | .ok (_, r) => gcdFuel fuel y r
      | .error _ => x

/-- `ZInt::gcd`: normalize both arguments, run the Euclidean loop,
normalize the result. -/
def ZInt.gcd (a b : ZInt) : ZInt :=
  (ZInt.gcdFuel ((b.normalize.normSq).toNat + 1) a.normalize b.normalize).normalize

theorem ZInt.eq_iff (p q : ZInt) : p = q ↔ p.a = q.a ∧ p.b = q.b := by
  cases p; cases q; simp

/-- `ZInt::normalize` on a nonzero input returns a unit multiple of the
input lying in the canonical quadrant (`a > 0`, `b ≥ 0`). -/
theorem ZInt.normalize_spec (x : ZInt) (hx : x.isZero = false) :
    ∃ u : ZInt, u.normSq = 1 ∧ x.normalize = u.mul x ∧
      x = u.conj.mul x.normalize ∧ 0 < x.normalize.a ∧ 0 ≤ x.normalize.b := by
  have hab : ¬ (x.a = 0 ∧ x.b = 0) := by
    intro ⟨h1, h2⟩; simp [isZero, h1, h2] at hx
  unfold normalize
  rw [if_neg (by simp [hx])]
  by_cases h2 : x.a = 0 ∧ x.b ≠ 0
  · rw [if_pos h2]
    obtain ⟨ha, hb⟩ := h2
    rcases lt_or_gt_of_ne hb with hbneg | hbpos
    · have habs : (x.b.natAbs : Int) = -x.b := by omega
      refine ⟨⟨0, 1⟩, by simp [normSq], ?_, ?_, by simp [new]; omega, by simp [new]⟩
      · rw [eq_iff]; simp [new, mul, ha, habs]
      · rw [eq_iff]; simp [new, mul, conj, ha, habs]
    · have habs : (x.b.natAbs : Int) = x.b := by omega
      refine ⟨⟨0, -1⟩, by simp [normSq], ?_, ?_, by simp [new]; omega, by simp [new]⟩
      · rw [eq_iff]; simp [new, mul, ha, habs]
      · rw [eq_iff]; simp [new, mul, conj, ha, habs]
  · rw [if_neg h2]
    by_cases h3 : 0 < x.a ∧ 0 ≤ x.b
    · rw [if_pos h3]
      refine ⟨⟨1, 0⟩, by simp [normSq], ?_, ?_, h3.1, h3.2⟩
      · rw [eq_iff]; simp [mul]
      · rw [eq_iff]; simp [mul, conj]
    · rw [if_neg h3]
      have ha : x.a ≠ 0 := by
        intro h0
        rcases em (x.b = 0) with hb | hb
        · exact hab ⟨h0, hb⟩
        · exact h2 ⟨h0, hb⟩
      have hex : ∃ c ∈ x.associates,
          (fun c => decide (0 < c.a) && decide (0 ≤ c.b)) c = true := by
        rcases lt_or_gt_of_ne ha with haneg | hapos
        · rcases le_or_lt x.b 0 with hble | hbpos
          · refine ⟨⟨-x.a, -x.b⟩, by simp [associates, new], by simp; omega⟩
          · refine ⟨⟨x.b, -x.a⟩, by simp [associates, new], by simp; omega⟩
        · have hbneg : x.b < 0 := by
            by_contra hcon; exact h3 ⟨hapos, by omega⟩
          refine ⟨⟨-x.b, x.a⟩, by simp [associates, new], by simp; omega⟩
      have hsome : (x.associates.find?
          (fun c => decide (0 < c.a) && decide (0 ≤ c.b))).isSome :=
        List.find?_isSome.mpr hex
      obtain ⟨c, hc⟩ := Option.isSome_iff_exists.mp hsome
      rw [hc]
      have hpred := List.find?_some hc
      have hmem := List.mem_of_find?_eq_some hc
      have hcq : 0 < c.a ∧ 0 ≤ c.b := by
        constructor <;> [exact of_decide_eq_true (Bool.and_eq_true_iff.mp hpred).1;
          exact of_decide_eq_true (Bool.and_eq_true_iff.mp hpred).2]
      simp only [associates, new, List.mem_cons, List.not_mem_nil, or_false] at hmem
      rcases hmem with hc1 | hc1 | hc1 | hc1 <;> subst hc1
      · exact ⟨⟨1, 0⟩, by simp [normSq],
          by rw [eq_iff]; simp [mul],
          by rw [eq_iff]; simp [mul, conj], hcq.1, hcq.2⟩
      · exact ⟨⟨0, 1⟩, by simp [normSq],
          by rw [eq_iff]; simp [mul],
          by rw [eq_iff]; simp [mul, conj], hcq.1, hcq.2⟩
      · exact ⟨⟨-1, 0⟩, by simp [normSq],
          by rw [eq_iff]; simp [mul],
          by rw [eq_iff]; simp [mul, conj], hcq.1, hcq.2⟩
      · exact ⟨⟨0, -1⟩, by simp [normSq],
          by rw [eq_iff]; simp [mul],
          by rw [eq_iff]; simp [mul, conj], hcq.1, hcq.2⟩

/-- `normalize` is the identity on values already in the canonical
quadrant. -/
theorem ZInt.normalize_of_quadrant (y : ZInt) (h1 : 0 < y.a) (h2 : 0 ≤ y.b) :
    y.normalize = y := by
  unfold normalize
  rw [if_neg (by simp [isZero]; omega), if_neg (by omega), if_pos ⟨h1, h2⟩]

theorem ZInt.normalize_zero : ZInt.normalize ZInt.zero = ZInt.zero := by decide

/-- `ZInt::gcd(x, 0)` never enters the loop: it returns the doubly
normalized input. -/
theorem ZInt.gcd_zero_right (x : ZInt) :
    ZInt.gcd x ZInt.zero = x.normalize.normalize := by
  unfold gcd
  rw [ZInt.normalize_zero]
  simp [ZInt.gcdFuel, ZInt.zero, ZInt.new, ZInt.normSq, ZInt.isZero]

/-- `gcd(x, zero)` on nonzero `x` is an associate of `x`: same squared
norm, and `div_exact(x, gcd(x, zero))` succeeds (with a unit quotient). -/
theorem ZInt.gcd_zero_spec (x : ZInt) (hx : x.isZero = false) :
    (ZInt.gcd x ZInt.zero).normSq = x.normSq ∧
    ∃ q, x.divExact (ZInt.gcd x ZInt.zero) = .ok q := by
  obtain ⟨u, hu1, hux, hxu, hqa, hqb⟩ := ZInt.normalize_spec x hx
  have hge : ZInt.gcd x ZInt.zero = x.normalize := by
    rw [ZInt.gcd_zero_right, ZInt.normalize_of_quadrant x.normalize hqa hqb]
  have hnorm : (x.normalize).normSq = x.normSq := by
    rw [hux, ZInt.normSq_mul, hu1, one_mul]
  have hxpos : 0 < x.normSq := x.normSq_pos hx
  have hgpos : 0 < (x.normalize).normSq := by omega
  have hgz : (x.normalize).isZero = false := by
    simp only [isZero]
    have : x.normalize.a ≠ 0 := by omega
    simp [this]
  obtain ⟨g, hg⟩ : ∃ g, x.normalize = g := ⟨x.normalize, rfl⟩
  rw [hg] at hxu hqa hqb hge hnorm hgpos hgz
  have hA : x.a * g.conj.a - x.b * g.conj.b = u.conj.a * g.normSq := by
    conv_lhs => rw [hxu]
    simp only [mul, conj, normSq]
    ring
  have hB : x.a * g.conj.b + x.b * g.conj.a = u.conj.b * g.normSq := by
    conv_lhs => rw [hxu]
    simp only [mul, conj, normSq]
    ring
  have hdr : x.divRem g = .ok (u.conj, ZInt.zero) := by
    unfold divRem
    rw [if_neg (by simp [hgz])]
    dsimp only
    rw [hA, hB, rndHalfAway_mul _ _ hgpos, rndHalfAway_mul _ _ hgpos]
    have hq : (⟨u.conj.a, u.conj.b⟩ : ZInt) = u.conj := rfl
    rw [hq]
    have hra : x.a = (u.conj.mul g).a := by conv_lhs => rw [hxu]
    have hrb : x.b = (u.conj.mul g).b := by conv_lhs => rw [hxu]
    have hr : x.sub (u.conj.mul g) = ZInt.zero := by
      rw [eq_iff]
      simp only [sub, zero, new]
      omega
    rw [hr]
  refine ⟨by rw [hge, hnorm], u.conj, ?_⟩
  rw [hge]
  unfold divExact
  rw [hdr]
  simp [ZInt.zero, ZInt.new, ZInt.isZero]

theorem natGcdDiv (m n k : Nat) (hk : k ≠ 0) (hm : k ∣ m) (hn : k ∣ n) :
    Nat.gcd (m / k) (n / k) = Nat.gcd m n / k := by
  obtain ⟨m', rfl⟩ := hm
  obtain ⟨n', rfl⟩ := hn
  rw [Nat.mul_div_cancel_left _ (Nat.pos_of_ne_zero hk),
    Nat.mul_div_cancel_left _ (Nat.pos_of_ne_zero hk), Nat.gcd_mul_left,
    Nat.mul_div_cancel_left _ (Nat.pos_of_ne_zero hk)]

theorem intNatAbsTdiv (a : Int) (k : Nat) (hk : k ≠ 0) (h : k ∣ a.natAbs) :
    (a.tdiv k).natAbs = a.natAbs / k := by
  have h' : (k : Int) ∣ a := by
    rw [← Int.natAbs_dvd_natAbs]
    simpa using h
  obtain ⟨c, rfl⟩ := h'
  rw [Int.mul_tdiv_cancel_left _ (by exact_mod_cast hk), Int.natAbs_mul,
    Int.natAbs_ofNat, Nat.mul_div_cancel_left _ (Nat.pos_of_ne_zero hk)]

/-- `ZInt::reduce_fraction` on a fraction with nonzero denominator: the
new denominator divides the old one, and the absolute numerator
components and the denominator end up coprime. -/
theorem ZInt.reduceFraction_full (fr : ZIFraction) (hden : fr.den ≠ 0) :
    (ZInt.reduceFraction fr).den ∣ fr.den ∧
    Nat.gcd (Nat.gcd (ZInt.reduceFraction fr).num.a.natAbs
      (ZInt.reduceFraction fr).num.b.natAbs) (ZInt.reduceFraction fr).den = 1 := by
  unfold reduceFraction
  set A := fr.num.a.natAbs with hAdef
  set B := fr.num.b.natAbs with hBdef
  set g := Nat.gcd (Nat.gcd A B) fr.den with hgdef
  have hgD : g ∣ fr.den := Nat.gcd_dvd_right _ _
  have hgA : g ∣ A := dvd_trans (Nat.gcd_dvd_left _ _) (Nat.gcd_dvd_left A B)
  have hgB : g ∣ B := dvd_trans (Nat.gcd_dvd_left _ _) (Nat.gcd_dvd_right A B)
  have hgne : g ≠ 0 := fun h0 => hden (Nat.eq_zero_of_gcd_eq_zero_right h0)
  by_cases hle : g ≤ 1
  · rw [if_pos hle]
    have h1 : g = 1 := by omega
    exact ⟨dvd_refl _, by rw [← hgdef]; exact h1⟩
  · rw [if_neg hle]
    refine ⟨Nat.div_dvd_of_dvd hgD, ?_⟩
    show Nat.gcd (Nat.gcd (Int.tdiv fr.num.a g).natAbs
      (Int.tdiv fr.num.b g).natAbs) (fr.den / g) = 1
    rw [intNatAbsTdiv _ _ hgne hgA, intNatAbsTdiv _ _ hgne hgB,
      natGcdDiv A B g hgne hgA hgB, natGcdDiv _ _ g hgne (Nat.gcd_dvd_left _ _) hgD,
      ← hgdef, Nat.div_self (Nat.pos_of_ne_zero hgne)]

/-- `HInt::reduce_fraction` divides the denominator by a divisor of it,
so the new denominator always divides the old one. -/
theorem HInt.reduceFraction_den_dvd (fr : HIFraction) :
    (HInt.reduceFraction fr).den ∣ fr.den := by
  unfold reduceFraction
  by_cases hle : Nat.gcd (Nat.gcd (Nat.gcd fr.num.a.natAbs fr.num.b.natAbs)
      (Nat.gcd fr.num.c.natAbs fr.num.d.natAbs)) fr.den ≤ 1
  · rw [if_pos hle]
  · rw [if_neg hle]
    exact Nat.div_dvd_of_dvd (Nat.gcd_dvd_right _ _)

/-- `OInt::reduce_fraction` on a nonzero denominator does not hit the
division-by-zero panic, and the new denominator divides the old one. -/
theorem OInt.reduceFraction_dvd (fr : OIFraction) (hden : fr.den ≠ 0) :
    ∃ r, OInt.reduceFraction fr = some r ∧ r.den ∣ fr.den := by
  unfold reduceFraction
  have hgne : Nat.gcd fr.num.normSq.natAbs fr.den ≠ 0 :=
    fun h0 => hden (Nat.eq_zero_of_gcd_eq_zero_right h0)
  rw [if_neg hgne]
  exact ⟨_, rfl, Nat.div_dvd_of_dvd (Nat.gcd_dvd_right _ _)⟩

/-- Uniform parity of the four stored components (all even or all odd):
the invariant established by `HInt::new` and `HInt::from_halves`. -/
def HInt.uniformParity (x : HInt) : Prop :=
  x.a % 2 = x.b % 2 ∧ x.a % 2 = x.c % 2 ∧ x.a % 2 = x.d % 2

/-- Hurwitz closure: on uniform-parity operands every widened product
component is even (the `/ 2` in `impl Mul for HInt` is exact) and the
product again has uniform parity. -/
theorem HInt.hurwitz_closure (x y : HInt)
    (hx : x.uniformParity) (hy : y.uniformParity) :
    (2 ∣ HInt.mulWideA x y ∧ 2 ∣ HInt.mulWideB x y ∧
     2 ∣ HInt.mulWideC x y ∧ 2 ∣ HInt.mulWideD x y) ∧
    (x.mul y).uniformParity := by
  obtain ⟨hb, hc, hd⟩ := hx
  obtain ⟨hf, hg, hh⟩ := hy
  obtain ⟨β, hβ⟩ : ∃ t, x.b = x.a + 2 * t := ⟨(x.b - x.a) / 2, by omega⟩
  obtain ⟨γ, hγ⟩ : ∃ t, x.c = x.a + 2 * t := ⟨(x.c - x.a) / 2, by omega⟩
  obtain ⟨δ, hδ⟩ : ∃ t, x.d = x.a + 2 * t := ⟨(x.d - x.a) / 2, by omega⟩
  obtain ⟨φ, hφ⟩ : ∃ t, y.b = y.a + 2 * t := ⟨(y.b - y.a) / 2, by omega⟩
  obtain ⟨ψ, hψ⟩ : ∃ t, y.c = y.a + 2 * t := ⟨(y.c - y.a) / 2, by omega⟩
  obtain ⟨ω, hω⟩ : ∃ t, y.d = y.a + 2 * t := ⟨(y.d - y.a) / 2, by omega⟩
  have hA : HInt.mulWideA x y =
      2 * (-(x.a * y.a) - x.a * φ - x.a * ψ - x.a * ω - β * y.a - γ * y.a -
        δ * y.a - 2 * (β * φ) - 2 * (γ * ψ) - 2 * (δ * ω)) := by
    simp only [mulWideA]
    rw [hβ, hγ, hδ, hφ, hψ, hω]
    ring
  have hB : HInt.mulWideB x y =
      2 * (x.a * y.a + x.a * φ + β * y.a + x.a * ω + γ * y.a + 2 * (γ * ω) -
        x.a * ψ - δ * y.a - 2 * (δ * ψ)) := by
    simp only [mulWideB]
    rw [hβ, hγ, hδ, hφ, hψ, hω]
    ring
  have hC : HInt.mulWideC x y =
      2 * (x.a * y.a + x.a * ψ - x.a * ω - β * y.a - 2 * (β * ω) + γ * y.a +
        x.a * φ + δ * y.a + 2 * (δ * φ)) := by
    simp only [mulWideC]
    rw [hβ, hγ, hδ, hφ, hψ, hω]
    ring
  have hD : HInt.mulWideD x y =
      2 * (x.a * y.a + x.a * ω + x.a * ψ + β * y.a + 2 * (β * ψ) - x.a * φ -
        γ * y.a - 2 * (γ * φ) + δ * y.a) := by
    simp only [mulWideD]
    rw [hβ, hγ, hδ, hφ, hψ, hω]
    ring
  refine ⟨⟨⟨_, hA⟩, ⟨_, hB⟩, ⟨_, hC⟩, ⟨_, hD⟩⟩, ?_⟩
  have h2 : (2 : Int) ≠ 0 := by norm_num
  have ra : (x.mul y).a = -(x.a * y.a) - x.a * φ - x.a * ψ - x.a * ω -
      β * y.a - γ * y.a - δ * y.a - 2 * (β * φ) - 2 * (γ * ψ) - 2 * (δ * ω) := by
    simp only [mul, hA]
    exact Int.mul_tdiv_cancel_left _ h2
  have rb : (x.mul y).b = x.a * y.a + x.a * φ + β * y.a + x.a * ω + γ * y.a +
      2 * (γ * ω) - x.a * ψ - δ * y.a - 2 * (δ * ψ) := by
    simp only [mul, hB]
    exact Int.mul_tdiv_cancel_left _ h2
  have rc : (x.mul y).c = x.a * y.a + x.a * ψ - x.a * ω - β * y.a -
      2 * (β * ω) + γ * y.a + x.a * φ + δ * y.a + 2 * (δ * φ) := by
    simp only [mul, hC]
    exact Int.mul_tdiv_cancel_left _ h2
  have rd : (x.mul y).d = x.a * y.a + x.a * ω + x.a * ψ + β * y.a +
      2 * (β * ψ) - x.a * φ - γ * y.a - 2 * (γ * φ) + δ * y.a := by
    simp only [mul, hD]
    exact Int.mul_tdiv_cancel_left _ h2
  have dab : 2 ∣ ((x.mul y).a - (x.mul y).b) := by
    rw [ra, rb]
    exact ⟨-(x.a * y.a) - x.a * φ - x.a * ω - β * y.a - γ * y.a - β * φ -
      γ * ψ - δ * ω - γ * ω + δ * ψ, by ring⟩
  have dac : 2 ∣ ((x.mul y).a - (x.mul y).c) := by
    rw [ra, rc]
    exact ⟨-(x.a * y.a) - x.a * ψ - x.a * φ - γ * y.a - δ * y.a - β * φ -
      γ * ψ - δ * ω + β * ω - δ * φ, by ring⟩
  have dad : 2 ∣ ((x.mul y).a - (x.mul y).d) := by
    rw [ra, rd]
    exact ⟨-(x.a * y.a) - x.a * ω - x.a * ψ - β * y.a - δ * y.a - β * φ -
      γ * ψ - δ * ω - β * ψ + γ * φ, by ring⟩
  obtain ⟨k1, hk1⟩ := dab
  obtain ⟨k2, hk2⟩ := dac
  obtain ⟨k3, hk3⟩ := dad
  exact ⟨by omega, by omega, by omega⟩

theorem tmodTwoZeroIff (z : Int) : z.tmod 2 = 0 ↔ z % 2 = 0 := by
  rw [← Int.dvd_iff_emod_eq_zero]
  exact ⟨Int.dvd_of_tmod_eq_zero, Int.tmod_eq_zero_of_dvd⟩

/-- Rust's oddness test `z % 2 != 0` (truncated remainder) as a decidable
parity predicate. -/
theorem boddEq (z : Int) : (z.tmod 2 != 0) = decide (¬ z % 2 = 0) := by
  by_cases h : z.tmod 2 = 0
  · have h2 : z % 2 = 0 := (tmodTwoZeroIff z).mp h
    simp [h, h2]
  · have h2 : ¬ z % 2 = 0 := fun hc => h ((tmodTwoZeroIff z).mpr hc)
    simp [h, h2]

/-- `HInt::from_halves` rejects exactly the mixed-parity component
tuples (some odd and some even). -/
theorem HInt.fromHalves_mixed_iff (a b c d : Int) :
    (HInt.fromHalves a b c d = .error .InvalidHalfInteger) ↔
    ¬ ((Odd a ∧ Odd b ∧ Odd c ∧ Odd d) ∨
       (Even a ∧ Even b ∧ Even c ∧ Even d)) := by
  simp only [HInt.fromHalves, boddEq]
  rw [Int.odd_iff, Int.odd_iff, Int.odd_iff, Int.odd_iff,
    Int.even_iff, Int.even_iff, Int.even_iff, Int.even_iff]
  split
  · next hcond =>
    simp only [bne_iff_ne, ne_eq, decide_eq_decide, Bool.or_eq_true] at hcond
    constructor
    · intro _
      omega
    · intro _
      trivial
  · next hcond =>
    simp only [Bool.or_eq_true, bne_iff_ne, ne_eq, decide_eq_decide] at hcond
    push_neg at hcond
    constructor
    · intro hfalse
      cases hfalse
    · intro hmix
      exfalso
      omega

/-- `OInt::from_halves` in `types/oint.rs` rejects exactly the
mixed-parity component tuples. -/
theorem TOInt.fromHalves_mixed_iff_eight (a b c d e f g h : Int) :
    (TOInt.fromHalves a b c d e f g h = .error .InvalidHalfInteger) ↔
    ¬ ((Odd a ∧ Odd b ∧ Odd c ∧ Odd d ∧ Odd e ∧ Odd f ∧ Odd g ∧ Odd h) ∨
       (Even a ∧ Even b ∧ Even c ∧ Even d ∧ Even e ∧ Even f ∧ Even g ∧ Even h)) := by
  simp only [TOInt.fromHalves, boddEq]
  rw [Int.odd_iff, Int.odd_iff, Int.odd_iff, Int.odd_iff, Int.odd_iff,
    Int.odd_iff, Int.odd_iff, Int.odd_iff, Int.even_iff, Int.even_iff,
    Int.even_iff, Int.even_iff, Int.even_iff, Int.even_iff, Int.even_iff,
    Int.even_iff]
  split
  · next hcond =>
    simp only [Bool.and_eq_true, beq_iff_eq, decide_eq_decide, true_and] at hcond
    constructor
    · intro hfalse
      cases hfalse
    · intro hmix
      exfalso
      omega
  · next hcond =>
    simp only [Bool.and_eq_true, beq_iff_eq, decide_eq_decide, true_and] at hcond
    push_neg at hcond
    constructor
    · intro _
      omega
    · intro _
      trivial

/-- The chunked batch loop of `zint_add_arrays` computes exactly the
elementwise sum. -/
theorem zintAddArrays_eq (a b : List ZInt) :
    zintAddArrays a b = List.zipWith ZInt.add a b := by
  induction a, b using zintAddArrays.induct with
  | _ => simp [zintAddArrays, List.zipWith, *]

/-- The chunked batch loop of `hint_add_arrays` computes exactly the
elementwise sum. -/
theorem hintAddArrays_eq (a b : List HInt) :
    hintAddArrays a b = List.zipWith HInt.add a b := by
  induction a, b using hintAddArrays.induct with
  | _ => simp [hintAddArrays, List.zipWith, *]

/-! ### Claims -/

/-- C1 (counterexample): as stated the claim is false.  For the rank-8
`OInt::div_rem` (which truncates instead of rounding), dividing
`1 + e₁ + e₂ + e₃ + e₄` by `2` yields quotient `0` and remainder equal to
the dividend, whose squared norm 5 is not below `norm²(d) = 4`. -/
theorem claim_C1_counterexample :
    OInt.divRem (OInt.new 1 1 1 1 1 0 0 0) (OInt.new 2 0 0 0 0 0 0 0) =
      .ok (OInt.zero, OInt.new 1 1 1 1 1 0 0 0) ∧
    (OInt.new 1 1 1 1 1 0 0 0).normSq = 5 ∧
    (OInt.new 2 0 0 0 0 0 0 0).normSq = 4 ∧
    ¬ ((OInt.new 1 1 1 1 1 0 0 0).normSq <
       (OInt.new 2 0 0 0 0 0 0 0).normSq) := by
  refine ⟨rfl, by decide, by decide, by decide⟩

/-- C1 (amended): for every rank and nonzero divisor, `div_rem` succeeds
with `q·d + r = x`; the remainder bound `norm²(r) < norm²(d)` holds for
rank 2 (`ZInt`), but not in general for ranks 4 and 8. -/
theorem claim_C1_amended :
    (∀ x d : ZInt, d.isZero = false →
      ∃ q r, x.divRem d = .ok (q, r) ∧ (q.mul d).add r = x ∧
        r.normSq < d.normSq) ∧
    (∀ x d : HInt, d.isZero = false →
      ∃ q r, x.divRem d = .ok (q, r) ∧ (q.mul d).add r = x) ∧
    (∀ x d : OInt, d.isZero = false →
      ∃ q r, x.divRem d = .ok (q, r) ∧ (q.mul d).add r = x) :=
  ⟨ZInt.divRem_euclid, HInt.divRem_reconstruct, OInt.divRem_reconstructs⟩

/-- C1 (witness): the amended statement applied to the spec's concrete
scenario `(10+5i) ÷ (3+2i)` and to quaternion/octonion instances. -/
theorem claim_C1_witness :
    (∃ q r, ZInt.divRem (ZInt.new 10 5) (ZInt.new 3 2) = .ok (q, r) ∧
      (q.mul (ZInt.new 3 2)).add r = ZInt.new 10 5 ∧
      r.normSq < (ZInt.new 3 2).normSq) ∧
    (∃ q r, HInt.divRem (HInt.new 7 3 2 1) (HInt.new 2 1 0 0) = .ok (q, r) ∧
      (q.mul (HInt.new 2 1 0 0)).add r = HInt.new 7 3 2 1) ∧
    (∃ q r, OInt.divRem (OInt.new 9 1 0 0 0 0 0 0)
        (OInt.new 2 0 0 0 0 0 0 0) = .ok (q, r) ∧
      (q.mul (OInt.new 2 0 0 0 0 0 0 0)).add r = OInt.new 9 1 0 0 0 0 0 0) :=
  ⟨claim_C1_amended.1 (ZInt.new 10 5) (ZInt.new 3 2) (by decide),
   claim_C1_amended.2.1 (HInt.new 7 3 2 1) (HInt.new 2 1 0 0) (by decide),
   claim_C1_amended.2.2 (OInt.new 9 1 0 0 0 0 0 0)
     (OInt.new 2 0 0 0 0 0 0 0) (by decide)⟩

/-- C2: the top-level Fano table lacks the `(2,7)`/`(7,2)`/`(3,6)`/`(6,3)`
arms, sending `e₂·e₇` to the scalar `1`; consequently the product of the
nonzero octonions `e₂+e₇` and `e₂-e₇` is zero and the squared norm is not
multiplicative (`0 ≠ 2·2`).  This evaluates the code at the failing
input. -/
theorem claim_C2_eval :
    OInt.mul (OInt.new 0 0 1 0 0 0 0 1) (OInt.new 0 0 1 0 0 0 0 (-1)) =
      OInt.zero ∧
    (OInt.mul (OInt.new 0 0 1 0 0 0 0 1)
      (OInt.new 0 0 1 0 0 0 0 (-1))).normSq = 0 ∧
    (OInt.new 0 0 1 0 0 0 0 1).normSq *
      (OInt.new 0 0 1 0 0 0 0 (-1)).normSq = 4 := by
  refine ⟨by decide, by decide, by decide⟩

/-- C3 (counterexample): `HInt::reduce_fraction` divides only the
denominator, never the numerator: on numerator `(4,4,4,4)` over 8 it
returns `(4,4,4,4)` over 2, whose components and denominator still share
the factor 2. -/
theorem claim_C3_counterexample :
    HInt.reduceFraction ⟨⟨4, 4, 4, 4⟩, 8⟩ = ⟨⟨4, 4, 4, 4⟩, 2⟩ ∧
    Nat.gcd (Nat.gcd (Nat.gcd (Int.natAbs 4) (Int.natAbs 4))
      (Nat.gcd (Int.natAbs 4) (Int.natAbs 4))) 2 = 2 := by
  refine ⟨by decide, by decide⟩

/-- C3 (amended): the reduced denominator always divides the original
one (for rank 8 given a nonzero denominator, which also avoids the
`0 / 0` panic); full reduction — gcd of numerator components and
denominator equal to 1 — holds for rank 2 only. -/
theorem claim_C3_amended :
    (∀ fr : ZIFraction, fr.den ≠ 0 →
      (ZInt.reduceFraction fr).den ∣ fr.den ∧
      Nat.gcd (Nat.gcd (ZInt.reduceFraction fr).num.a.natAbs
        (ZInt.reduceFraction fr).num.b.natAbs)
        (ZInt.reduceFraction fr).den = 1) ∧
    (∀ fr : HIFraction, (HInt.reduceFraction fr).den ∣ fr.den) ∧
    (∀ fr : OIFraction, fr.den ≠ 0 →
      ∃ r, OInt.reduceFraction fr = some r ∧ r.den ∣ fr.den) :=
  ⟨ZInt.reduceFraction_full, HInt.reduceFraction_den_dvd,
   OInt.reduceFraction_dvd⟩

/-- C3 (witness): the amended statement at concrete fractions. -/
theorem claim_C3_witness :
    ((ZInt.reduceFraction ⟨⟨4, 6⟩, 10⟩).den ∣ 10 ∧
      Nat.gcd (Nat.gcd (ZInt.reduceFraction ⟨⟨4, 6⟩, 10⟩).num.a.natAbs
        (ZInt.reduceFraction ⟨⟨4, 6⟩, 10⟩).num.b.natAbs)
        (ZInt.reduceFraction ⟨⟨4, 6⟩, 10⟩).den = 1) ∧
    (∃ r, OInt.reduceFraction ⟨⟨2, 0, 0, 0, 0, 0, 0, 0⟩, 8⟩ = some r ∧
      r.den ∣ 8) :=
  ⟨claim_C3_amended.1 ⟨⟨4, 6⟩, 10⟩ (by decide),
   claim_C3_amended.2.2 ⟨⟨2, 0, 0, 0, 0, 0, 0, 0⟩, 8⟩ (by decide)⟩

/-- C4: the batch array additions equal the scalar operation applied
elementwise — as a whole (`zipWith`) and at every index, tail elements
past the last full-width chunk included. -/
theorem claim_C4 :
    (∀ a b : List ZInt, zintAddArrays a b = List.zipWith ZInt.add a b) ∧
    (∀ a b : List HInt, hintAddArrays a b = List.zipWith HInt.add a b) ∧
    (∀ (a b : List ZInt) (i : Nat) (h1 : i < a.length) (h2 : i < b.length),
      (zintAddArrays a b)[i]? = some (ZInt.add a[i] b[i])) ∧
    (∀ (a b : List HInt) (i : Nat) (h1 : i < a.length) (h2 : i < b.length),
      (hintAddArrays a b)[i]? = some (HInt.add a[i] b[i])) := by
  refine ⟨zintAddArrays_eq, hintAddArrays_eq, ?_, ?_⟩
  · intro a b i h1 h2
    rw [zintAddArrays_eq, List.getElem?_zipWith]
    simp [List.getElem?_eq_getElem, h1, h2]
  · intro a b i h1 h2
    rw [hintAddArrays_eq, List.getElem?_zipWith]
    simp [List.getElem?_eq_getElem, h1, h2]

/-- C4 (witness): a length-5 batch (one full rank-2 chunk of four plus a
tail element) evaluated at the tail index 4. -/
theorem claim_C4_witness :
    (zintAddArrays [⟨1, 2⟩, ⟨3, 4⟩, ⟨5, 6⟩, ⟨7, 8⟩, ⟨9, 10⟩]
      [⟨1, 1⟩, ⟨1, 1⟩, ⟨1, 1⟩, ⟨1, 1⟩, ⟨2, 3⟩])[4]? =
      some (ZInt.add ⟨9, 10⟩ ⟨2, 3⟩) :=
  claim_C4.2.2.1 [⟨1, 2⟩, ⟨3, 4⟩, ⟨5, 6⟩, ⟨7, 8⟩, ⟨9, 10⟩]
    [⟨1, 1⟩, ⟨1, 1⟩, ⟨1, 1⟩, ⟨1, 1⟩, ⟨2, 3⟩] 4 (by decide) (by decide)

/-- C5 (counterexample): multiplying `65536 + 65536i` by itself makes the
widened imaginary part `2³³` exceed the `i32` range, and both
`impl Mul for ZInt` and `impl Mul for CInt` take the `panic!` branch
(modelled `none`) instead of returning a recoverable `Overflow` value. -/
theorem claim_C5_counterexample :
    ZInt.mulChk ⟨65536, 65536⟩ ⟨65536, 65536⟩ = none ∧
    CInt.mulChk ⟨65536, 65536⟩ ⟨65536, 65536⟩ = none := by
  refine ⟨by decide, by decide⟩

/-- C5 (amended): `DivisionByZero`, `NotDivisible`, `NoInverse` and
`InvalidHalfInteger` are returned as recoverable error values, but
multiplication overflow is process-terminating (a `panic!`, modelled
`none`), not a returned `Overflow` value. -/
theorem claim_C5_amended :
    (∀ x : ZInt, x.divRem ZInt.zero = .error .DivisionByZero) ∧
    (ZInt.divExact (ZInt.new 7 3) (ZInt.new 2 0) = .error .NotDivisible) ∧
    (ZInt.invUnit (ZInt.new 2 0) = .error .NoInverse) ∧
    (HInt.fromHalves 1 0 0 0 = .error .InvalidHalfInteger) ∧
    ZInt.mulChk ⟨65536, 65536⟩ ⟨65536, 65536⟩ = none ∧
    CInt.mulChk ⟨65536, 65536⟩ ⟨65536, 65536⟩ = none := by
  refine ⟨fun x => rfl, rfl, rfl, rfl, by decide, by decide⟩

/-- C6 (counterexample): the top-level `OInt::from_halves` accepts the
mixed-parity tuple `(1,0,0,0,0,0,0,0)` (1 is odd, 0 is even) instead of
returning `InvalidHalfInteger`. -/
theorem claim_C6_counterexample :
    OInt.fromHalves 1 0 0 0 0 0 0 0 = .ok (OInt.new 1 0 0 0 0 0 0 0) ∧
    Odd (1 : Int) ∧ Even (0 : Int) := by
  refine ⟨rfl, ⟨0, by norm_num⟩, ⟨0, by norm_num⟩⟩

/-- C6 (amended): `HInt::from_halves` and the `types/oint.rs`
`OInt::from_halves` fail with `InvalidHalfInteger` exactly on mixed
parity; the top-level `OInt::from_halves` performs no check and always
succeeds. -/
theorem claim_C6_amended :
    (∀ a b c d : Int,
      (HInt.fromHalves a b c d = .error .InvalidHalfInteger) ↔
      ¬ ((Odd a ∧ Odd b ∧ Odd c ∧ Odd d) ∨
         (Even a ∧ Even b ∧ Even c ∧ Even d))) ∧
    (∀ a b c d e f g h : Int,
      (TOInt.fromHalves a b c d e f g h = .error .InvalidHalfInteger) ↔
      ¬ ((Odd a ∧ Odd b ∧ Odd c ∧ Odd d ∧ Odd e ∧ Odd f ∧ Odd g ∧ Odd h) ∨
         (Even a ∧ Even b ∧ Even c ∧ Even d ∧ Even e ∧ Even f ∧ Even g ∧
          Even h))) ∧
    (∀ a b c d e f g h : Int,
      OInt.fromHalves a b c d e f g h = .ok (OInt.new a b c d e f g h)) :=
  ⟨HInt.fromHalves_mixed_iff, TOInt.fromHalves_mixed_iff_eight,
   fun _ _ _ _ _ _ _ _ => rfl⟩

/-- C7: the Moufang identity fails on the basis triple `(e₁, e₂, e₇)`
under both implemented multiplications — the top-level table (missing
arms) and the complete `types/oint.rs` table (inconsistently oriented
triads) — although the code's own API documentation asserts it.  This
evaluates `moufang_identity` at the failing input. -/
theorem claim_C7_eval :
    OInt.moufang OInt.e1 OInt.e2 OInt.e7 = false ∧
    TOInt.moufang TOInt.e1 TOInt.e2 TOInt.e7 = false := by
  refine ⟨by decide, by decide⟩

/-- C8 (counterexample): one iteration of the rank-4 gcd loop on
`(1+i+j+k, 2)` produces a remainder with squared norm equal (not
strictly below) the divisor's, and the loop then cycles with period 4 —
it never reaches `b = 0`. -/
theorem claim_C8_counterexample :
    HInt.gcdStep (HInt.new 1 1 1 1, HInt.new 2 0 0 0) =
      (⟨4, 0, 0, 0⟩, ⟨-2, -2, -2, -2⟩) ∧
    (⟨-2, -2, -2, -2⟩ : HInt).normSq = (HInt.new 2 0 0 0).normSq ∧
    (⟨-2, -2, -2, -2⟩ : HInt).isZero = false := by
  refine ⟨by decide, by decide, by decide⟩

/-- C8 (amended): the rank-2 loop terminates — the remainder's squared
norm strictly decreases, so iterating the loop step reaches `b = 0` —
while the rank-4 and rank-8 loops can cycle forever (explicit cycles of
period 4 and 2 through nonzero states). -/
theorem claim_C8_amended :
    (∀ x y : ZInt, y.isZero = false →
      ∃ q r, x.divRem y = .ok (q, r) ∧ r.normSq < y.normSq) ∧
    (∀ x y : ZInt, ∃ n : Nat,
      ((ZInt.gcdStep)^[n] (x, y)).2.isZero = true) ∧
    (HInt.gcdStep (⟨2, 2, 2, 2⟩, ⟨4, 0, 0, 0⟩) =
        (⟨4, 0, 0, 0⟩, ⟨-2, -2, -2, -2⟩) ∧
     HInt.gcdStep (⟨4, 0, 0, 0⟩, ⟨-2, -2, -2, -2⟩) =
        (⟨-2, -2, -2, -2⟩, ⟨-4, 0, 0, 0⟩) ∧
     HInt.gcdStep (⟨-2, -2, -2, -2⟩, ⟨-4, 0, 0, 0⟩) =
        (⟨-4, 0, 0, 0⟩, ⟨2, 2, 2, 2⟩) ∧
     HInt.gcdStep (⟨-4, 0, 0, 0⟩, ⟨2, 2, 2, 2⟩) =
        (⟨2, 2, 2, 2⟩, ⟨4, 0, 0, 0⟩) ∧
     (⟨4, 0, 0, 0⟩ : HInt).isZero = false ∧
     (⟨-2, -2, -2, -2⟩ : HInt).isZero = false ∧
     (⟨-4, 0, 0, 0⟩ : HInt).isZero = false ∧
     (⟨2, 2, 2, 2⟩ : HInt).isZero = false) ∧
    (OInt.gcdStep (⟨1, 1, 1, 1, 1, 0, 0, 0⟩, ⟨2, 0, 0, 0, 0, 0, 0, 0⟩) =
        (⟨2, 0, 0, 0, 0, 0, 0, 0⟩, ⟨1, 1, 1, 1, 1, 0, 0, 0⟩) ∧
     OInt.gcdStep (⟨2, 0, 0, 0, 0, 0, 0, 0⟩, ⟨1, 1, 1, 1, 1, 0, 0, 0⟩) =
        (⟨1, 1, 1, 1, 1, 0, 0, 0⟩, ⟨2, 0, 0, 0, 0, 0, 0, 0⟩) ∧
     (⟨2, 0, 0, 0, 0, 0, 0, 0⟩ : OInt).isZero = false ∧
     (⟨1, 1, 1, 1, 1, 0, 0, 0⟩ : OInt).isZero = false) := by
  refine ⟨?_, ?_, ?_, ?_⟩
  · intro x y hy
    obtain ⟨q, r, hok, _, hlt⟩ := ZInt.divRem_euclid x y hy
    exact ⟨q, r, hok, hlt⟩
  · intro x y
    exact ZInt.gcdStep_reaches_aux (y.normSq).toNat x y (le_refl _)
  · refine ⟨by decide, by decide, by decide, by decide, by decide,
      by decide, by decide, by decide⟩
  · refine ⟨by decide, by decide, by decide, by decide⟩

/-- C8 (witness): the strict-decrease part at `(10+5i) ÷ (3+2i)` and the
reach-zero part at the same state. -/
theorem claim_C8_witness :
    (∃ q r, ZInt.divRem (ZInt.new 10 5) (ZInt.new 3 2) = .ok (q, r) ∧
      r.normSq < (ZInt.new 3 2).normSq) ∧
    (∃ n : Nat,
      ((ZInt.gcdStep)^[n] (ZInt.new 10 5, ZInt.new 3 2)).2.isZero = true) :=
  ⟨claim_C8_amended.1 (ZInt.new 10 5) (ZInt.new 3 2) (by decide),
   claim_C8_amended.2.1 (ZInt.new 10 5) (ZInt.new 3 2)⟩

/-- C9 (counterexample): at `x = 0` the claim fails: `gcd(0, 0) = 0` and
`div_exact(0, 0)` is a `DivisionByZero` error, not a success. -/
theorem claim_C9_counterexample :
    ZInt.gcd ZInt.zero ZInt.zero = ZInt.zero ∧
    ZInt.divExact ZInt.zero (ZInt.gcd ZInt.zero ZInt.zero) =
      .error .DivisionByZero := by
  refine ⟨rfl, rfl⟩

/-- C9 (amended): for every nonzero `x`, `gcd(x, zero)` is an associate
of `x`: it has the same squared norm, and `div_exact(x, gcd(x, zero))`
succeeds. -/
theorem claim_C9_amended (x : ZInt) (hx : x.isZero = false) :
    (ZInt.gcd x ZInt.zero).normSq = x.normSq ∧
    ∃ q, x.divExact (ZInt.gcd x ZInt.zero) = .ok q :=
  ZInt.gcd_zero_spec x hx

/-- C9 (witness): the amended statement at `x = -3 - 4i`. -/
theorem claim_C9_witness :
    (ZInt.gcd (ZInt.new (-3) (-4)) ZInt.zero).normSq =
      (ZInt.new (-3) (-4)).normSq ∧
    ∃ q, ZInt.divExact (ZInt.new (-3) (-4))
      (ZInt.gcd (ZInt.new (-3) (-4)) ZInt.zero) = .ok q :=
  claim_C9_amended (ZInt.new (-3) (-4)) (by decide)

/-- C10: on uniform-parity operands (the invariant established by
`HInt::new` and `from_halves`) every widened product component is even —
the division by 2 inside `impl Mul for HInt` is exact — and the product
again has uniform parity: the doubled-storage Hurwitz representation is
closed under multiplication. -/
theorem claim_C10 (x y : HInt) (hx : x.uniformParity) (hy : y.uniformParity) :
    (2 ∣ HInt.mulWideA x y ∧ 2 ∣ HInt.mulWideB x y ∧
     2 ∣ HInt.mulWideC x y ∧ 2 ∣ HInt.mulWideD x y) ∧
    (x.mul y).uniformParity :=
  HInt.hurwitz_closure x y hx hy

/-- C10 (witness): the closure statement at the half-integer values
`(1+i+j+k)/2` and `(1+3i+5j+7k)/2`. -/
theorem claim_C10_witness :
    (2 ∣ HInt.mulWideA ⟨1, 1, 1, 1⟩ ⟨1, 3, 5, 7⟩ ∧
     2 ∣ HInt.mulWideB ⟨1, 1, 1, 1⟩ ⟨1, 3, 5, 7⟩ ∧
     2 ∣ HInt.mulWideC ⟨1, 1, 1, 1⟩ ⟨1, 3, 5, 7⟩ ∧
     2 ∣ HInt.mulWideD ⟨1, 1, 1, 1⟩ ⟨1, 3, 5, 7⟩) ∧
    (HInt.mul ⟨1, 1, 1, 1⟩ ⟨1, 3, 5, 7⟩).uniformParity :=
  claim_C10 ⟨1, 1, 1, 1⟩ ⟨1, 3, 5, 7⟩
    (by refine ⟨by decide, by decide, by decide⟩)
    (by refine ⟨by decide, by decide, by decide⟩)

end Entropy
